import Mathlib

/-!
Verification of the HN-digest core components against their specification.

The definitions below are shallow embeddings of the Python source:
  * `hn_digest/podcast_generator.py` — text chunking (`_split_text_into_chunks`),
    multi-chunk audio generation (`_generate_multiple_chunks`), and the
    filename helper (`get_podcast_filename`);
  * `hn_digest/content_filter.py` — keyword scoring (`_calculate_ai_score`),
    admission (`is_ai_related`) and ranking (`filter_and_score_stories`);
  * `hn_digest/config.py` — the keyword taxonomy and limits.

Text is modelled as `List Char`; Python machine-level details that matter are
noted at each definition.
-/

/-- ASCII whitespace stripped by Python's `str.lstrip()` / matched by `\s`
(the source texts are ASCII; Python additionally strips non-ASCII Unicode
whitespace, which never occurs in the inputs considered here). -/
def pyWhitespace (c : Char) : Bool :=
  c = ' ' || c = '\t' || c = '\n' || c = '\r' || c = '\x0b' || c = '\x0c'

/-- Does `pat` occur in `s` starting at index `i`?  (Used to model Python's
`str.rfind` and `in`.) -/
def matchesAt (s pat : List Char) (i : Nat) : Bool :=
  pat.isPrefixOf (s.drop i)

/-- Helper for `rfind`: largest index `< n` at which `pat` occurs in `s`,
as an `Int`, `-1` when there is none. -/
def rfindAux (s pat : List Char) : Nat → Int
  | 0 => -1
  | n + 1 => if matchesAt s pat n then ((n : Nat) : Int) else rfindAux s pat n

/-- Python `s.rfind(pat)`: index of the last occurrence of `pat` in `s`,
`-1` when `pat` does not occur. -/
def rfind (s pat : List Char) : Int :=
  rfindAux s pat (s.length + 1)

/-- `max(chunk.rfind('. '), chunk.rfind('! '), chunk.rfind('? '))` from
`_split_text_into_chunks`. -/
def sentenceBreakPos (chunk : List Char) : Int :=
  max (rfind chunk ['.', ' ']) (max (rfind chunk ['!', ' ']) (rfind chunk ['?', ' ']))

/-- One iteration of the chunking loop of `_split_text_into_chunks`: choose the
chunk to peel off the front of `remaining` (which has length `> maxSize`).

The Python comparisons are `sentence_break > maxSize * 0.7` etc. with `0.7`,
`0.8` IEEE doubles; at the source's fixed `MAX_CHUNK_SIZE = 4000` the products
`4000 * 0.7` and `4000 * 0.8` are exactly `2800.0` and `3200.0`, so the
comparisons coincide with the exact rational comparisons `10 * b > 7 * maxSize`
and `10 * b > 8 * maxSize` used here. -/
def pickChunk (maxSize : Nat) (remaining : List Char) : List Char :=
  let chunk := remaining.take maxSize
  let sb := sentenceBreakPos chunk
  if sb * 10 > (maxSize : Int) * 7 then
    remaining.take (sb.toNat + 2)
  else
    let pb := rfind chunk ['\n', '\n']
    if pb * 10 > (maxSize : Int) * 7 then
      remaining.take (pb.toNat + 2)
    else
      let wb := rfind chunk [' ']
      if wb * 10 > (maxSize : Int) * 8 then
        remaining.take wb.toNat
      else
        chunk

/-- The `while remaining_text:` loop of `_split_text_into_chunks`, with an
explicit fuel argument (the loop terminates for `maxSize ≥ 1`, which is proved
below as fuel-indifference; Python has no fuel and simply loops). -/
def splitLoop (maxSize : Nat) : Nat → List Char → List (List Char)
  | 0, _ => []
  | fuel + 1, remaining =>
    if remaining.isEmpty then []
    else if remaining.length ≤ maxSize then [remaining]
    else
      let chunk := pickChunk maxSize remaining
      chunk :: splitLoop maxSize fuel ((remaining.drop chunk.length).dropWhile pyWhitespace)

/-- `PodcastGenerator._split_text_into_chunks`, with the size ceiling as a
parameter (the source fixes it to `MAX_CHUNK_SIZE`). -/
def splitChunks (maxSize : Nat) (text : List Char) : List (List Char) :=
  if text.length ≤ maxSize then [text] else splitLoop maxSize text.length text

/-- `PodcastGenerator.MAX_CHUNK_SIZE`. -/
def MAX_CHUNK_SIZE : Nat := 4000

/-- `PodcastGenerator._split_text_into_chunks` at the source's fixed ceiling. -/
def split_text_into_chunks (text : List Char) : List (List Char) :=
  splitChunks MAX_CHUNK_SIZE text

/-! Basic properties of `rfind` and `pickChunk`. -/

theorem rfindAux_cases (s pat : List Char) :
    ∀ n, rfindAux s pat n = -1 ∨
      (0 ≤ rfindAux s pat n ∧ rfindAux s pat n < (n : Int) ∧
        matchesAt s pat (rfindAux s pat n).toNat = true) := by
  intro n
  induction n with
  | zero => left; rfl
  | succ n ih =>
    by_cases h : matchesAt s pat n = true
    · right
      simp only [rfindAux, h, if_true]
      refine ⟨by positivity, by exact_mod_cast Nat.lt_succ_self n, ?_⟩
      simpa using h
    · have : rfindAux s pat (n + 1) = rfindAux s pat n := by
        simp only [rfindAux, h, if_false, Bool.false_eq_true]
      rw [this]
      rcases ih with h1 | ⟨h1, h2, h3⟩
      · left; exact h1
      · right; exact ⟨h1, lt_trans h2 (by exact_mod_cast Nat.lt_succ_self n), h3⟩

theorem rfind_matches (s pat : List Char) (h : 0 ≤ rfind s pat) :
    matchesAt s pat (rfind s pat).toNat = true := by
  rcases rfindAux_cases s pat (s.length + 1) with h1 | ⟨_, _, h3⟩
  · rw [rfind] at h; rw [h1] at h; omega
  · exact h3

theorem isPrefixOf_exists_append :
    ∀ p s : List Char, p.isPrefixOf s = true → ∃ t, s = p ++ t := by
  intro p
  induction p with
  | nil => intro s _; exact ⟨s, rfl⟩
  | cons a p ih =>
    intro s h
    cases s with
    | nil => simp [List.isPrefixOf] at h
    | cons b s =>
      simp only [List.isPrefixOf, Bool.and_eq_true, beq_iff_eq] at h
      obtain ⟨hab, hp⟩ := h
      obtain ⟨t, ht⟩ := ih s hp
      exact ⟨t, by rw [List.cons_append, ← hab, ← ht]⟩

theorem isPrefixOf_length_le (p s : List Char) (h : p.isPrefixOf s = true) :
    p.length ≤ s.length := by
  obtain ⟨t, ht⟩ := isPrefixOf_exists_append p s h
  rw [ht, List.length_append]
  omega

theorem matchesAt_le (s pat : List Char) (i : Nat) (h : matchesAt s pat i = true) :
    i * 0 + pat.length ≤ s.length - i := by
  rw [matchesAt] at h
  have := isPrefixOf_length_le pat (s.drop i) h
  simpa [List.length_drop] using this

theorem matchesAt_add_le (s pat : List Char) (i : Nat)
    (h : matchesAt s pat i = true) (hne : 1 ≤ pat.length) :
    i + pat.length ≤ s.length := by
  have := matchesAt_le s pat i h
  omega

theorem sentenceBreakPos_matches (chunk : List Char) (h : 0 ≤ sentenceBreakPos chunk) :
    ∃ p, (p = '.' ∨ p = '!' ∨ p = '?') ∧
      matchesAt chunk [p, ' '] (sentenceBreakPos chunk).toNat = true := by
  rcases max_choice (rfind chunk ['.', ' '])
      (max (rfind chunk ['!', ' ']) (rfind chunk ['?', ' '])) with h1 | h1
  · refine ⟨'.', Or.inl rfl, ?_⟩
    rw [sentenceBreakPos] at h ⊢
    rw [h1] at h ⊢
    exact rfind_matches _ _ h
  · rcases max_choice (rfind chunk ['!', ' ']) (rfind chunk ['?', ' ']) with h2 | h2
    · refine ⟨'!', Or.inr (Or.inl rfl), ?_⟩
      rw [sentenceBreakPos] at h ⊢
      rw [h1, h2] at h ⊢
      exact rfind_matches _ _ h
    · refine ⟨'?', Or.inr (Or.inr rfl), ?_⟩
      rw [sentenceBreakPos] at h ⊢
      rw [h1, h2] at h ⊢
      exact rfind_matches _ _ h

theorem pickChunk_spec (maxSize : Nat) (remaining : List Char)
    (h : maxSize < remaining.length) :
    ∃ k, k ≤ maxSize ∧ (1 ≤ maxSize → 1 ≤ k) ∧
      pickChunk maxSize remaining = remaining.take k := by
  have hwin : (remaining.take maxSize).length = maxSize := by
    rw [List.length_take]; omega
  rw [pickChunk]
  set window := remaining.take maxSize with hw
  set sb := sentenceBreakPos window with hsb
  by_cases h1 : sb * 10 > (maxSize : Int) * 7
  · have hm : (0 : Int) ≤ (maxSize : Int) := Int.natCast_nonneg _
    have hsb0 : 0 ≤ sb := by omega
    obtain ⟨p, _, hmat⟩ := sentenceBreakPos_matches window hsb0
    have hle : sb.toNat + 2 ≤ window.length :=
      matchesAt_add_le window [p, ' '] sb.toNat hmat (by simp)
    refine ⟨sb.toNat + 2, by omega, fun _ => by omega, ?_⟩
    simp only [h1, if_true]
  · simp only [h1, if_false]
    set pb := rfind window ['\n', '\n'] with hpb
    by_cases h2 : pb * 10 > (maxSize : Int) * 7
    · have hm : (0 : Int) ≤ (maxSize : Int) := Int.natCast_nonneg _
      have hpb0 : 0 ≤ pb := by omega
      have hmat := rfind_matches window ['\n', '\n'] hpb0
      have hle : pb.toNat + 2 ≤ window.length :=
        matchesAt_add_le window ['\n', '\n'] pb.toNat hmat (by simp)
      refine ⟨pb.toNat + 2, by omega, fun _ => by omega, ?_⟩
      simp only [h2, if_true]
    · simp only [h2, if_false]
      set wb := rfind window [' '] with hwb
      by_cases h3 : wb * 10 > (maxSize : Int) * 8
      · have hm : (0 : Int) ≤ (maxSize : Int) := Int.natCast_nonneg _
        have hwb0 : 0 ≤ wb := by omega
        have hmat := rfind_matches window [' '] hwb0
        have hle : wb.toNat + 1 ≤ window.length :=
          matchesAt_add_le window [' '] wb.toNat hmat (by simp)
        refine ⟨wb.toNat, by omega, fun _ => by omega, ?_⟩
        simp only [h3, if_true]
      · refine ⟨maxSize, le_refl _, fun hm => hm, ?_⟩
        simp only [h3, if_false]

theorem pickChunk_length (maxSize : Nat) (remaining : List Char)
    (h : maxSize < remaining.length) :
    (pickChunk maxSize remaining).length ≤ maxSize ∧
      (1 ≤ maxSize → 1 ≤ (pickChunk maxSize remaining).length) := by
  obtain ⟨k, hk1, hk2, hk3⟩ := pickChunk_spec maxSize remaining h
  rw [hk3, List.length_take]
  constructor
  · omega
  · intro hm; have := hk2 hm; omega

theorem splitLoop_mem_length (maxSize : Nat) :
    ∀ fuel remaining c, c ∈ splitLoop maxSize fuel remaining → c.length ≤ maxSize := by
  intro fuel
  induction fuel with
  | zero => intro remaining c hc; simp [splitLoop] at hc
  | succ fuel ih =>
    intro remaining c hc
    rw [splitLoop] at hc
    by_cases he : remaining.isEmpty
    · simp [he] at hc
    · simp only [he, if_false, Bool.false_eq_true] at hc
      by_cases hl : remaining.length ≤ maxSize
      · simp only [hl, if_true] at hc
        rw [List.mem_singleton] at hc
        subst hc; exact hl
      · simp only [hl, if_false] at hc
        rcases List.mem_cons.1 hc with hc | hc
        · subst hc
          exact (pickChunk_length maxSize remaining (by omega)).1
        · exact ih _ c hc

/-- Non-whitespace characters of a text, in order. -/
def nonWhite (s : List Char) : List Char := s.filter (fun c => !pyWhitespace c)

theorem nonWhite_dropWhile (s : List Char) :
    nonWhite (s.dropWhile pyWhitespace) = nonWhite s := by
  induction s with
  | nil => rfl
  | cons c rest ih =>
    rw [List.dropWhile_cons]
    by_cases h : pyWhitespace c
    · simp only [h, if_true]
      rw [ih, nonWhite, nonWhite, List.filter_cons]
      simp [h]
    · simp [h]

theorem nonWhite_append (s t : List Char) :
    nonWhite (s ++ t) = nonWhite s ++ nonWhite t := by
  simp [nonWhite, List.filter_append]

theorem splitLoop_content (maxSize : Nat) (hm : 1 ≤ maxSize) :
    ∀ fuel remaining, remaining.length ≤ fuel →
      nonWhite (splitLoop maxSize fuel remaining).flatten = nonWhite remaining := by
  intro fuel
  induction fuel with
  | zero =>
    intro remaining hlen
    have : remaining = [] := List.eq_nil_of_length_eq_zero (by omega)
    subst this; rfl
  | succ fuel ih =>
    intro remaining hlen
    rw [splitLoop]
    by_cases he : remaining.isEmpty
    · rw [List.isEmpty_iff] at he
      subst he; rfl
    · simp only [he, if_false, Bool.false_eq_true]
      by_cases hl : remaining.length ≤ maxSize
      · simp only [hl, if_true]
        simp [List.flatten]
      · simp only [hl, if_false]
        obtain ⟨k, hk1, hk2, hk3⟩ := pickChunk_spec maxSize remaining (by omega)
        have hklen : (pickChunk maxSize remaining).length = k := by
          rw [hk3, List.length_take]; omega
        have hrec :
            ((remaining.drop (pickChunk maxSize remaining).length).dropWhile
              pyWhitespace).length ≤ fuel := by
          have hdw := (List.dropWhile_suffix (l :=
            remaining.drop (pickChunk maxSize remaining).length) pyWhitespace).length_le
          have hdr : (remaining.drop (pickChunk maxSize remaining).length).length =
              remaining.length - k := by rw [hklen, List.length_drop]
          have := hk2 hm
          omega
        rw [List.flatten_cons, nonWhite_append, ih _ hrec, nonWhite_dropWhile, hklen,
          hk3, ← nonWhite_append, List.take_append_drop]

theorem splitLoop_fuel_succ (maxSize : Nat) (hm : 1 ≤ maxSize) :
    ∀ fuel remaining, remaining.length ≤ fuel →
      splitLoop maxSize (fuel + 1) remaining = splitLoop maxSize fuel remaining := by
  intro fuel
  induction fuel with
  | zero =>
    intro remaining hlen
    have : remaining = [] := List.eq_nil_of_length_eq_zero (by omega)
    subst this; rfl
  | succ fuel ih =>
    intro remaining hlen
    conv_lhs => rw [splitLoop]
    conv_rhs => rw [splitLoop]
    by_cases he : remaining.isEmpty
    · simp [he]
    · simp only [he, if_false, Bool.false_eq_true]
      by_cases hl : remaining.length ≤ maxSize
      · simp [hl]
      · simp only [hl, if_false]
        obtain ⟨k, hk1, hk2, hk3⟩ := pickChunk_spec maxSize remaining (by omega)
        have hklen : (pickChunk maxSize remaining).length = k := by
          rw [hk3, List.length_take]; omega
        have hrec :
            ((remaining.drop (pickChunk maxSize remaining).length).dropWhile
              pyWhitespace).length ≤ fuel := by
          have hdw := (List.dropWhile_suffix (l :=
            remaining.drop (pickChunk maxSize remaining).length) pyWhitespace).length_le
          have hdr : (remaining.drop (pickChunk maxSize remaining).length).length =
              remaining.length - k := by rw [hklen, List.length_drop]
          have := hk2 hm
          omega
        rw [ih _ hrec]

theorem splitLoop_fuel_ge (maxSize : Nat) (hm : 1 ≤ maxSize)
    (remaining : List Char) :
    ∀ fuel, remaining.length ≤ fuel →
      splitLoop maxSize fuel remaining = splitLoop maxSize remaining.length remaining := by
  intro fuel
  induction fuel with
  | zero => intro h; have : remaining.length = 0 := by omega
            rw [this]
  | succ fuel ih =>
    intro h
    by_cases hle : remaining.length ≤ fuel
    · rw [splitLoop_fuel_succ maxSize hm fuel remaining hle, ih hle]
    · have : remaining.length = fuel + 1 := by omega
      rw [this]

/-! Claim theorems for the Text Chunker. -/

/-- C1: every chunk returned by `splitChunks` has length at most `maxSize`, and
whenever the input text's length is at most `maxSize`, the split is exactly the
one-element list containing the unmodified text. -/
theorem chunker_size_ceiling_and_identity (maxSize : Nat) (text : List Char) :
    (∀ c ∈ splitChunks maxSize text, c.length ≤ maxSize) ∧
    (text.length ≤ maxSize → splitChunks maxSize text = [text]) := by
  constructor
  · intro c hc
    rw [splitChunks] at hc
    by_cases h : text.length ≤ maxSize
    · rw [if_pos h, List.mem_singleton] at hc
      subst hc; exact h
    · rw [if_neg h] at hc
      exact splitLoop_mem_length maxSize _ _ c hc
  · intro h; rw [splitChunks, if_pos h]

theorem chunker_size_ceiling_and_identity_witness :
    ("abc".toList ∈ splitChunks 3 "abcde".toList ∧ "abc".toList.length ≤ 3) ∧
    ("ab".toList.length ≤ 5 ∧ splitChunks 5 "ab".toList = ["ab".toList]) :=
  ⟨⟨by decide, (chunker_size_ceiling_and_identity 3 "abcde".toList).1 _ (by decide)⟩,
   ⟨by decide, (chunker_size_ceiling_and_identity 5 "ab".toList).2 (by decide)⟩⟩

/-- C2: concatenating all chunks of a split reproduces the original text's
non-whitespace content losslessly — the sequence of non-whitespace characters
of the concatenation equals that of the input (so nothing is lost, duplicated
or reordered; only whitespace at split points differs). -/
theorem chunker_lossless_content (maxSize : Nat) (text : List Char)
    (hm : 1 ≤ maxSize) :
    nonWhite (splitChunks maxSize text).flatten = nonWhite text := by
  rw [splitChunks]
  by_cases h : text.length ≤ maxSize
  · rw [if_pos h]; simp [List.flatten]
  · rw [if_neg h]
    exact splitLoop_content maxSize hm text.length text (le_refl _)

theorem chunker_lossless_content_witness :
    1 ≤ 3 ∧ nonWhite (splitChunks 3 "ab cde f".toList).flatten = nonWhite "ab cde f".toList :=
  ⟨by decide, chunker_lossless_content 3 "ab cde f".toList (by decide)⟩

/-- C5 counterexample: with `maxChunkSize = 10` the candidate window of
"abcdefg. hijklmno" is "abcdefg. h", whose last sentence break sits at
position 7, exactly 70% of 10; the claim says this triggers the sentence cut
(chunk "abcdefg. "), but the code requires strictly more than 70% and instead
emits the full 10-character window. -/
theorem chunker_sentence_cut_at_threshold_cex :
    sentenceBreakPos ("abcdefg. hijklmno".toList.take 10) = 7 ∧
    (7 : Int) * 10 ≥ (10 : Int) * 7 ∧
    10 < "abcdefg. hijklmno".toList.length ∧
    pickChunk 10 "abcdefg. hijklmno".toList ≠
      "abcdefg. hijklmno".toList.take (7 + 2) := by decide

/-- C5 amended: in every chunking iteration whose candidate window contains a
sentence break whose last occurrence position is strictly past 70% of
`maxSize` (the code's comparison is strict, so a break exactly at 70% does not
trigger), the chunker cuts immediately after that punctuation and space: the
chunk is the prefix of length position + 2 and ends with the punctuation
character followed by the space. -/
theorem chunker_sentence_cut (maxSize : Nat) (remaining : List Char)
    (h : maxSize < remaining.length)
    (hsb : sentenceBreakPos (remaining.take maxSize) * 10 > (maxSize : Int) * 7) :
    pickChunk maxSize remaining =
      remaining.take ((sentenceBreakPos (remaining.take maxSize)).toNat + 2) ∧
    ∃ p, (p = '.' ∨ p = '!' ∨ p = '?') ∧
      (pickChunk maxSize remaining).drop
        (sentenceBreakPos (remaining.take maxSize)).toNat = [p, ' '] := by
  have hpick : pickChunk maxSize remaining =
      remaining.take ((sentenceBreakPos (remaining.take maxSize)).toNat + 2) := by
    rw [pickChunk]
    simp only [hsb, if_true]
  refine ⟨hpick, ?_⟩
  have hm : (0 : Int) ≤ (maxSize : Int) := Int.natCast_nonneg _
  have hsb0 : 0 ≤ sentenceBreakPos (remaining.take maxSize) := by omega
  obtain ⟨p, hp, hmat⟩ := sentenceBreakPos_matches (remaining.take maxSize) hsb0
  refine ⟨p, hp, ?_⟩
  set sb := (sentenceBreakPos (remaining.take maxSize)).toNat with hsbdef
  have hwin : (remaining.take maxSize).length = maxSize := by
    rw [List.length_take]; omega
  have hle : sb + 2 ≤ maxSize := by
    have h1 := matchesAt_add_le (remaining.take maxSize) [p, ' '] sb hmat (by simp)
    have h2l : ([p, ' '] : List Char).length = 2 := rfl
    omega
  obtain ⟨t, ht⟩ := isPrefixOf_exists_append [p, ' ']
    ((remaining.take maxSize).drop sb) hmat
  have hwd : (remaining.take maxSize).drop sb = (remaining.drop sb).take (maxSize - sb) := by
    rw [List.drop_take]
  rw [hpick]
  have hcd : (remaining.take (sb + 2)).drop sb = (remaining.drop sb).take 2 := by
    rw [List.drop_take]
    congr 1
    omega
  rw [hcd]
  have h2 : (remaining.drop sb).take 2 = ((remaining.drop sb).take (maxSize - sb)).take 2 := by
    rw [List.take_take]
    congr 1
    omega
  rw [h2, ← hwd, ht]
  rfl

theorem chunker_sentence_cut_witness :
    pickChunk 10 "abcdefgh. jklmnop".toList =
      "abcdefgh. jklmnop".toList.take
        ((sentenceBreakPos ("abcdefgh. jklmnop".toList.take 10)).toNat + 2) ∧
    ∃ p, (p = '.' ∨ p = '!' ∨ p = '?') ∧
      (pickChunk 10 "abcdefgh. jklmnop".toList).drop
        (sentenceBreakPos ("abcdefgh. jklmnop".toList.take 10)).toNat = [p, ' '] :=
  chunker_sentence_cut 10 "abcdefgh. jklmnop".toList (by decide) (by decide)

/-- C7: the chunking loop terminates for every finite text and `maxSize ≥ 1`:
the fuel-indexed loop is already stable at fuel = length of the text (any
larger fuel yields the same result), and each iteration of the loop consumes
at least one character of the remaining text. -/
theorem chunker_terminates (maxSize : Nat) (text : List Char) (fuel : Nat)
    (hm : 1 ≤ maxSize) :
    (text.length ≤ fuel →
      splitLoop maxSize fuel text = splitLoop maxSize text.length text) ∧
    (maxSize < text.length →
      ((text.drop (pickChunk maxSize text).length).dropWhile pyWhitespace).length + 1
        ≤ text.length) := by
  constructor
  · intro h; exact splitLoop_fuel_ge maxSize hm text fuel h
  · intro h
    obtain ⟨k, hk1, hk2, hk3⟩ := pickChunk_spec maxSize text h
    have hklen : (pickChunk maxSize text).length = k := by
      rw [hk3, List.length_take]; omega
    have hdw := (List.dropWhile_suffix (l :=
      text.drop (pickChunk maxSize text).length) pyWhitespace).length_le
    have hdr : (text.drop (pickChunk maxSize text).length).length = text.length - k := by
      rw [hklen, List.length_drop]
    have := hk2 hm
    omega

theorem chunker_terminates_witness :
    ("abcd".toList.length ≤ 10 ∧
      splitLoop 2 10 "abcd".toList = splitLoop 2 "abcd".toList.length "abcd".toList) ∧
    (2 < "abcd".toList.length ∧
      (("abcd".toList.drop (pickChunk 2 "abcd".toList).length).dropWhile
        pyWhitespace).length + 1 ≤ "abcd".toList.length) :=
  ⟨⟨by decide, (chunker_terminates 2 "abcd".toList 10 (by decide)).1 (by decide)⟩,
   ⟨by decide, (chunker_terminates 2 "abcd".toList 10 (by decide)).2 (by decide)⟩⟩

/-! Embedding of `content_filter.py`: the keyword matcher and the ranker.

The compiled regular expressions of `ContentFilter.__init__` are embedded as
explicit pattern-element lists.  Word characters follow Python's `\w` for the
ASCII range (letters, digits, underscore); matching is case-insensitive
(`re.IGNORECASE`), modelled by lowercasing the scanned character. -/

/-- Python regex `\w` (ASCII range). -/
def isWordChar (c : Char) : Bool := c.isAlphanum || c = '_'

/-- One character of the class `[\s\-_]` used between the words of a
multi-word keyword. -/
def sepChar (c : Char) : Bool := pyWhitespace c || c = '-' || c = '_'

/-- One element of a compiled keyword pattern: a literal character
(compared case-insensitively), an optional literal dot (`\\.?`) or an optional
separator (`[\\s\\-_]?`). -/
inductive PatElem where
  | lit (c : Char)
  | optDot
  | optSep
deriving DecidableEq

/-- Match a pattern-element list against the text suffix `rest`.  `lw` records
whether the character immediately before `rest` is a word character, so the
trailing `\\b` of every compiled pattern can be decided when the elements are
exhausted: a word boundary holds iff exactly one of the neighbouring
characters is a word character. -/
def matchElems : List PatElem → Bool → List Char → Bool
  | [], lw, [] => lw
  | [], lw, c :: _ => lw != isWordChar c
  | .lit _ :: _, _, [] => false
  | .lit ch :: ps, _, c :: r => (c.toLower == ch) && matchElems ps (isWordChar c) r
  | .optDot :: ps, lw, [] => matchElems ps lw []
  | .optDot :: ps, lw, c :: r =>
      matchElems ps lw (c :: r) || ((c == '.') && matchElems ps (isWordChar c) r)
  | .optSep :: ps, lw, [] => matchElems ps lw []
  | .optSep :: ps, lw, c :: r =>
      matchElems ps lw (c :: r) || (sepChar c && matchElems ps (isWordChar c) r)

/-- Tail `i\\b` of the `a\\s+i` alternative: a literal `i` followed by a word
boundary. -/
def matchIEnd : List Char → Bool
  | [] => false
  | c :: r =>
      (c.toLower == 'i') && (match r with | [] => true | d :: _ => !isWordChar d)

/-- Tail `\\s+i\\b` of the `a\\s+i` alternative: one or more whitespace
characters, then `i` and a word boundary. -/
def matchWsI : List Char → Bool
  | [] => false
  | c :: r => pyWhitespace c && (matchIEnd r || matchWsI r)

/-- One alternative of a compiled pattern: either a plain element list, or
the `a\\s+i` alternative of the special `ai` regex (kept separate because of
its one-or-more quantifier). -/
inductive Alt where
  | elems (ps : List PatElem)
  | aiSpaced
deriving DecidableEq

/-- Match one alternative at the start of the text suffix `rest`. -/
def matchAlt : Alt → Bool → List Char → Bool
  | .elems ps, lw, rest => matchElems ps lw rest
  | .aiSpaced, _, rest =>
      match rest with
      | [] => false
      | c :: r => (c.toLower == 'a') && matchWsI r

/-- Scan of `re.search` for one alternative: try the pattern at every
position, from the left; `pw` records whether the previous character is a
word character (every alternative starts with a letter, so the leading `\\b`
holds iff that letter's left neighbour is not a word character). -/
def searchElems (alt : Alt) : Bool → List Char → Bool
  | pw, [] => (pw != false) && matchAlt alt pw []
  | pw, c :: r =>
      ((pw != isWordChar c) && matchAlt alt pw (c :: r)) ||
        searchElems alt (isWordChar c) r

/-- Number of start positions at which some alternative of the pattern
matches (with both word boundaries).  `searchAlts` below is positive exactly
on the texts where this count is positive. -/
def countPositions (alts : List Alt) : Bool → List Char → Nat
  | pw, [] => if alts.any (fun alt => (pw != false) && matchAlt alt pw []) then 1 else 0
  | pw, c :: r =>
      (if alts.any (fun alt => (pw != isWordChar c) && matchAlt alt pw (c :: r))
        then 1 else 0) + countPositions alts (isWordChar c) r

/-- `pattern.search(title)` as a Boolean: does any alternative match at any
position?  The scan starts at position 0, whose left neighbour counts as a
non-word character. -/
def searchAlts (alts : List Alt) (s : List Char) : Bool :=
  alts.any (fun alt => searchElems alt false s)

/-- Compiled pattern of an ordinary keyword: `re.escape(keyword)` with every
escaped space replaced by `[\s\-_]?`, anchored by `\b` on both sides
(the anchors live in `searchElems`/`matchElems`).  A literal hyphen
(as in `dall-e`) stays a mandatory literal. -/
def genericElems (kw : String) : List PatElem :=
  kw.toList.map (fun c => if c = ' ' then PatElem.optSep else PatElem.lit c)

/-- The compiled pattern of `ContentFilter.__init__` for one keyword:
`ai` compiles to `\b(?:ai|a\.?i\.?|a\s+i)\b`, `machine learning` to
`\bmachine[\s\-_]?learning\b`, and every other keyword to the generic
escaped form.  Alternatives are listed in the regex's order. -/
def keywordPattern (kw : String) : List Alt :=
  if kw = "ai" then
    [.elems [.lit 'a', .lit 'i'],
     .elems [.lit 'a', .optDot, .lit 'i', .optDot],
     .aiSpaced]
  else if kw = "machine learning" then
    [.elems (genericElems "machine learning")]
  else
    [.elems (genericElems kw)]

/-- `Config.AI_KEYWORDS`. -/
def AI_KEYWORDS : List String :=
  ["ai", "artificial intelligence", "machine learning", "ml", "neural",
   "deep learning", "gpt", "llm", "large language model", "openai",
   "anthropic", "claude", "chatgpt", "transformer", "bert", "nlp",
   "natural language processing", "computer vision", "reinforcement learning",
   "supervised learning", "unsupervised learning", "automation", "robot",
   "algorithm", "data science", "tensorflow", "pytorch", "keras",
   "generative", "diffusion", "stable diffusion", "midjourney", "dall-e"]

/-- Weight of a matched keyword, from `_calculate_ai_score`. -/
def keywordWeight (kw : String) : Int :=
  if ["ai", "artificial intelligence", "machine learning", "ml"].contains kw then 3
  else if ["gpt", "llm", "openai", "anthropic", "claude", "chatgpt"].contains kw then 4
  else 2

/-- The keyword loop of `_calculate_ai_score`: fold over the taxonomy, adding
the keyword's weight and appending its label on each `pattern.search` hit. -/
def keywordPass (title : List Char) : Int × List String :=
  AI_KEYWORDS.foldl
    (fun acc kw =>
      if searchAlts (keywordPattern kw) title then
        (acc.1 + keywordWeight kw, acc.2 ++ [kw])
      else acc)
    ((0 : Int), ([] : List String))

/-- Python `pat in s` (substring containment). -/
def containsSub (pat : List Char) : List Char → Bool
  | [] => pat.isEmpty
  | c :: r => pat.isPrefixOf (c :: r) || containsSub pat r

/-- The `ai_domains` list of `_calculate_ai_score`. -/
def ai_domains : List String :=
  ["openai.com", "anthropic.com", "deepmind.com", "research.google", "arxiv.org"]

/-- The domain-bonus loop of `_calculate_ai_score`: the first domain contained
in the lowercased URL adds 2 points and one `domain:` label, then the loop
breaks. -/
def domainLoop : List String → List Char → Int × List String
  | [], _ => (0, [])
  | d :: ds, urlLower =>
      if containsSub d.toList urlLower then (2, ["domain:" ++ d])
      else domainLoop ds urlLower

/-- `ContentFilter._calculate_ai_score`. -/
def calculate_ai_score (title url : List Char) : Int × List String :=
  let kp := keywordPass title
  let dom := domainLoop ai_domains (url.map Char.toLower)
  (kp.1 + dom.1, kp.2 ++ dom.2)

/-- A candidate story as consumed by `ContentFilter` (`story.get('title', '')`,
`story.get('url', '')`, `story.get('score', 0)`; missing fields default
upstream). -/
structure Story where
  id : Int
  title : List Char
  url : List Char
  score : Int
deriving DecidableEq

/-- A story augmented with the filtering metadata added by
`filter_and_score_stories`. -/
structure ScoredStory where
  story : Story
  ai_score : Int
  matched_keywords : List String
  combined_score : Int
deriving DecidableEq

/-- `ContentFilter.is_ai_related`: any positive score means AI-related. -/
def is_ai_related (st : Story) : Bool :=
  (calculate_ai_score st.title st.url).1 > 0

/-- Attach the filtering metadata to one admitted story
(`story_with_score.update(...)`). -/
def scoreStory (st : Story) : ScoredStory :=
  let r := calculate_ai_score st.title st.url
  { story := st, ai_score := r.1, matched_keywords := r.2,
    combined_score := st.score + r.1 }

/-- The admission loop of `filter_and_score_stories`: keep, in arrival order,
the stories with a positive score, each with its metadata attached. -/
def admittedStories (stories : List Story) : List ScoredStory :=
  stories.filterMap (fun st => if is_ai_related st then some (scoreStory st) else none)

/-- Descending comparison on `combined_score` used for the sort
(`sort(key=..., reverse=True)`). -/
def combinedGe (a b : ScoredStory) : Bool := b.combined_score ≤ a.combined_score

/-- `Config.MAX_ARTICLES`. -/
def MAX_ARTICLES : Nat := 100

/-- `ContentFilter.filter_and_score_stories` with the truncation ceiling as a
parameter (the source fixes it to `MAX_ARTICLES`).  Python's `list.sort` is a
stable sort by the key; `List.mergeSort` with the reversed comparison is the
stable descending-by-key sort, hence extensionally the same function. -/
def filter_and_score_stories (stories : List Story) (maxArticles : Nat) :
    List ScoredStory :=
  ((admittedStories stories).mergeSort combinedGe).take maxArticles

/-! Embedding of `PodcastGenerator._generate_multiple_chunks`.

The external effects are abstracted: temporary artifacts are identified by
their chunk index; `oracle i = none` means the synthesis call for chunk `i`
raises one of the caught API errors, `oracle i = some n` means it writes `n`
bytes into the already-created temporary file (`n = 0` is the missing/empty
post-condition violation); `combineOk` is the outcome of
`_combine_audio_files`.  The result records the returned Boolean, whether the
destination artifact was created, and which temporary artifacts still exist
after the `finally` cleanup. -/

structure MultiResult where
  success : Bool
  destCreated : Bool
  tempsLeft : List Nat
deriving DecidableEq

/-- The per-chunk loop: for each chunk, `tempfile.mkstemp` creates temporary
file `k` (so it exists from that point on and is recorded in `temp_files`),
then the synthesis call either raises (`none`), writes an empty file
(`some 0`) — both abort with failure — or succeeds.  Returns the loop's
Boolean outcome, the `temp_files` list, and the temporary files existing on
disk when the loop exits. -/
def chunkLoop (oracle : Nat → Option Nat) : Nat → List (List Char) → Bool × List Nat × List Nat
  | _, [] => (true, [], [])
  | k, _ :: rest =>
    match oracle k with
    | none => (false, [k], [k])
    | some 0 => (false, [k], [k])
    | some (_ + 1) =>
      let r := chunkLoop oracle (k + 1) rest
      (r.1, k :: r.2.1, k :: r.2.2)

/-- The `finally` block: each file recorded in `temp_files` is deleted if it
exists (deletion failures are only logged; deletion itself is modelled as
succeeding). -/
def cleanupTemps (fs temps : List Nat) : List Nat :=
  fs.filter (fun p => !temps.contains p)

/-- `PodcastGenerator._generate_multiple_chunks`: run the per-chunk loop; on
full success combine into the destination (which creates it) and return the
combine outcome, otherwise return failure without touching the destination;
in both cases the `finally` cleanup deletes the recorded temporary files. -/
def generate_multiple_chunks (oracle : Nat → Option Nat) (combineOk : Bool)
    (chunks : List (List Char)) : MultiResult :=
  let r := chunkLoop oracle 0 chunks
  if r.1 then
    { success := combineOk, destCreated := true,
      tempsLeft := cleanupTemps r.2.2 r.2.1 }
  else
    { success := false, destCreated := false,
      tempsLeft := cleanupTemps r.2.2 r.2.1 }

/-- The characters of the extension `.txt`. -/
def txtPat : List Char := ['.', 't', 'x', 't']

/-- Python `s.replace('.txt', '.mp3')`: replace every non-overlapping
occurrence of `.txt`, scanning from the left (a window shorter than four
characters can hold no occurrence and is emitted unchanged). -/
def replaceTxt : List Char → List Char
  | c0 :: c1 :: c2 :: c3 :: rest =>
    if c0 = '.' ∧ c1 = 't' ∧ c2 = 'x' ∧ c3 = 't' then
      '.' :: 'm' :: 'p' :: '3' :: replaceTxt rest
    else
      c0 :: replaceTxt (c1 :: c2 :: c3 :: rest)
  | s => s

/-- `PodcastGenerator.get_podcast_filename`. -/
def get_podcast_filename (digest_filename : List Char) : List Char :=
  if txtPat.isSuffixOf digest_filename then
    replaceTxt digest_filename
  else
    digest_filename ++ ('.' :: 'm' :: 'p' :: '3' :: [])

/-! Claim theorems for the Relevance Ranker. -/

theorem combinedGe_trans (a b c : ScoredStory)
    (h1 : combinedGe a b = true) (h2 : combinedGe b c = true) :
    combinedGe a c = true := by
  rw [combinedGe, decide_eq_true_iff] at h1 h2 ⊢
  exact le_trans h2 h1

theorem combinedGe_total (a b : ScoredStory) :
    (combinedGe a b || combinedGe b a) = true := by
  rw [Bool.or_eq_true, combinedGe, combinedGe, decide_eq_true_iff, decide_eq_true_iff]
  exact le_total b.combined_score a.combined_score

theorem mem_admittedStories (stories : List Story) (x : ScoredStory)
    (hx : x ∈ admittedStories stories) :
    ∃ st ∈ stories, is_ai_related st = true ∧ x = scoreStory st := by
  rw [admittedStories, List.mem_filterMap] at hx
  obtain ⟨st, hst, heq⟩ := hx
  by_cases h : is_ai_related st = true
  · rw [if_pos h, Option.some_inj] at heq
    exact ⟨st, hst, h, heq.symm⟩
  · rw [if_neg h] at heq
    exact absurd heq (Option.noConfusion)

/-- C3: every item in the ranker's output has a positive computed relevance
score (which is recorded unchanged in its `ai_score` field), its combined
score is exactly its popularity metric plus its relevance score, and —
relevance score being the sole admission criterion — every input story with a
positive computed score is present in the sorted admitted list (before the
`maxArticles` truncation). -/
theorem ranker_admission (stories : List Story) (maxArticles : Nat) :
    (∀ x ∈ filter_and_score_stories stories maxArticles,
      0 < x.ai_score ∧
      x.ai_score = (calculate_ai_score x.story.title x.story.url).1 ∧
      x.combined_score = x.story.score + x.ai_score) ∧
    (∀ st ∈ stories, 0 < (calculate_ai_score st.title st.url).1 →
      scoreStory st ∈ (admittedStories stories).mergeSort combinedGe) := by
  constructor
  · intro x hx
    rw [filter_and_score_stories] at hx
    have hx2 : x ∈ (admittedStories stories).mergeSort combinedGe :=
      List.mem_of_mem_take hx
    have hx3 : x ∈ admittedStories stories :=
      (List.mergeSort_perm (admittedStories stories) combinedGe).mem_iff.1 hx2
    obtain ⟨st, _, hrel, hxeq⟩ := mem_admittedStories stories x hx3
    subst hxeq
    rw [is_ai_related, decide_eq_true_iff] at hrel
    exact ⟨hrel, rfl, rfl⟩
  · intro st hst hpos
    have hmem : scoreStory st ∈ admittedStories stories := by
      rw [admittedStories, List.mem_filterMap]
      refine ⟨st, hst, ?_⟩
      rw [if_pos]
      rw [is_ai_related, decide_eq_true_iff]
      exact hpos
    exact (List.mergeSort_perm (admittedStories stories) combinedGe).mem_iff.2 hmem

theorem ranker_admission_witness :
    (0 < (scoreStory ⟨1, "AI".toList, "".toList, 5⟩).ai_score ∧
      (scoreStory ⟨1, "AI".toList, "".toList, 5⟩).ai_score =
        (calculate_ai_score (⟨1, "AI".toList, "".toList, 5⟩ : Story).title
          (⟨1, "AI".toList, "".toList, 5⟩ : Story).url).1 ∧
      (scoreStory ⟨1, "AI".toList, "".toList, 5⟩).combined_score =
        (⟨1, "AI".toList, "".toList, 5⟩ : Story).score +
          (scoreStory ⟨1, "AI".toList, "".toList, 5⟩).ai_score) ∧
    (scoreStory ⟨1, "AI".toList, "".toList, 5⟩ ∈
      (admittedStories [⟨1, "AI".toList, "".toList, 5⟩]).mergeSort combinedGe) :=
  ⟨(ranker_admission [⟨1, "AI".toList, "".toList, 5⟩] 10).1
      (scoreStory ⟨1, "AI".toList, "".toList, 5⟩)
      (by
        rw [filter_and_score_stories,
          (by decide :
            admittedStories [(⟨1, "AI".toList, "".toList, 5⟩ : Story)] =
              [scoreStory ⟨1, "AI".toList, "".toList, 5⟩]),
          List.mergeSort_singleton]
        decide),
   (ranker_admission [⟨1, "AI".toList, "".toList, 5⟩] 10).2
      ⟨1, "AI".toList, "".toList, 5⟩ (by decide) (by decide)⟩

theorem pairwise_filter_all {α : Type} (p : α → Bool) (R : α → α → Prop)
    (h : ∀ a b, p a = true → p b = true → R a b) :
    ∀ l : List α, List.Pairwise R (l.filter p) := by
  intro l
  induction l with
  | nil => exact List.Pairwise.nil
  | cons a l ih =>
    rw [List.filter_cons]
    by_cases ha : p a = true
    · simp only [ha, if_true]
      refine List.Pairwise.cons ?_ ih
      intro b hb
      exact h a b ha (List.of_mem_filter hb)
    · simp only [ha, if_false, Bool.false_eq_true]
      exact ih

theorem stable_filter_mergeSort (l : List ScoredStory) (c : Int) :
    (l.mergeSort combinedGe).filter (fun x => x.combined_score == c) =
      l.filter (fun x => x.combined_score == c) := by
  set p : ScoredStory → Bool := fun x => x.combined_score == c with hp
  have hperm : ((l.mergeSort combinedGe).filter p).Perm (l.filter p) :=
    (List.mergeSort_perm l combinedGe).filter p
  have hpw : List.Pairwise (fun a b => combinedGe a b = true) (l.filter p) := by
    refine pairwise_filter_all p _ ?_ l
    intro a b ha hb
    rw [hp] at ha hb
    simp only [beq_iff_eq] at ha hb
    rw [combinedGe, decide_eq_true_iff, ha, hb]
  have hsub : (l.filter p).Sublist (l.mergeSort combinedGe) :=
    List.sublist_mergeSort combinedGe_trans combinedGe_total hpw (List.filter_sublist l)
  have hsub2 : (l.filter p).Sublist ((l.mergeSort combinedGe).filter p) := by
    have h1 := hsub.filter p
    have hall : ∀ a ∈ l.filter p, p a = true := fun a ha => List.of_mem_filter ha
    rwa [List.filter_eq_self.2 hall] at h1
  have hlen : (l.filter p).length = ((l.mergeSort combinedGe).filter p).length :=
    (hperm.symm).length_eq
  exact (hsub2.eq_of_length hlen).symm

/-- C8: the ranker's output is sorted by combined score in non-increasing
order; the sort is stable — for every score value, the items holding it appear
in the sorted admitted list exactly as they appear, in arrival order, in the
admitted list, and the truncated output preserves that relative order; and
the output length never exceeds `maxArticles`. -/
theorem ranker_output_order (stories : List Story) (maxArticles : Nat) :
    List.Pairwise (fun a b => b.combined_score ≤ a.combined_score)
      (filter_and_score_stories stories maxArticles) ∧
    (∀ c : Int,
      ((admittedStories stories).mergeSort combinedGe).filter
          (fun x => x.combined_score == c) =
        (admittedStories stories).filter (fun x => x.combined_score == c)) ∧
    (∀ c : Int,
      ((filter_and_score_stories stories maxArticles).filter
          (fun x => x.combined_score == c)).Sublist
        ((admittedStories stories).filter (fun x => x.combined_score == c))) ∧
    (filter_and_score_stories stories maxArticles).length ≤ maxArticles := by
  refine ⟨?_, ?_, ?_, ?_⟩
  · have hs := List.sorted_mergeSort combinedGe_trans combinedGe_total
      (admittedStories stories)
    have ht : (filter_and_score_stories stories maxArticles).Sublist
        ((admittedStories stories).mergeSort combinedGe) := by
      rw [filter_and_score_stories]
      exact List.take_sublist _ _
    refine (List.Pairwise.sublist ht hs).imp ?_
    intro a b h
    rw [combinedGe, decide_eq_true_iff] at h
    exact h
  · intro c
    exact stable_filter_mergeSort (admittedStories stories) c
  · intro c
    have h1 : (filter_and_score_stories stories maxArticles).Sublist
        ((admittedStories stories).mergeSort combinedGe) := by
      rw [filter_and_score_stories]
      exact List.take_sublist _ _
    have h2 := h1.filter (fun x => x.combined_score == c)
    rwa [stable_filter_mergeSort (admittedStories stories) c] at h2
  · rw [filter_and_score_stories, List.length_take]
    omega

/-! Claim theorems for the Keyword Matcher. -/

theorem domainLoop_eq_find (ds : List String) (u : List Char) :
    domainLoop ds u =
      match ds.find? (fun d => containsSub d.toList u) with
      | some d => (2, ["domain:" ++ d])
      | none => ((0 : Int), ([] : List String)) := by
  induction ds with
  | nil => rfl
  | cons d ds ih =>
    rw [domainLoop, List.find?_cons]
    by_cases h : containsSub d.toList u = true
    · rw [if_pos h, h]
    · rw [if_neg h, Bool.eq_false_iff.2 h, ih]

/-- C6: the URL's host is checked against the known-relevant domains in their
declared order (`List.find?` returns the first hit); the first matching
domain adds exactly 2 points and appends exactly one synthetic `domain:`
label as the last element of the matched-label sequence, and no match leaves
score and labels unchanged — so at most one domain bonus is ever added, even
if the URL contains several (or repeated) known domains. -/
theorem matcher_domain_bonus (title url : List Char) :
    calculate_ai_score title url =
      ((keywordPass title).1 +
        (match ai_domains.find?
            (fun d => containsSub d.toList (url.map Char.toLower)) with
          | some _ => 2
          | none => 0),
       (keywordPass title).2 ++
        (match ai_domains.find?
            (fun d => containsSub d.toList (url.map Char.toLower)) with
          | some d => ["domain:" ++ d]
          | none => [])) := by
  rw [calculate_ai_score]
  rw [domainLoop_eq_find]
  rcases hfind : ai_domains.find?
      (fun d => containsSub d.toList (url.map Char.toLower)) with _ | d
  · rw [hfind]
  · rw [hfind]

theorem list_any_or {α : Type} (l : List α) (f g : α → Bool) :
    (l.any fun x => f x || g x) = (l.any f || l.any g) := by
  induction l with
  | nil => rfl
  | cons a l ih =>
    simp only [List.any_cons, ih]
    cases f a <;> cases g a <;> simp

theorem search_eq_count (alts : List Alt) :
    ∀ s pw, (alts.any fun alt => searchElems alt pw s) =
      decide (0 < countPositions alts pw s) := by
  intro s
  induction s with
  | nil =>
    intro pw
    by_cases h : (alts.any fun alt => (pw != false) && matchAlt alt pw []) = true
    · rw [countPositions, if_pos h]
      simp only [searchElems]
      rw [h]; rfl
    · rw [countPositions, if_neg h]
      simp only [searchElems]
      rw [Bool.eq_false_iff.2 h]; rfl
  | cons c r ih =>
    intro pw
    have hsplit : (alts.any fun alt => searchElems alt pw (c :: r)) =
        ((alts.any fun alt =>
            (pw != isWordChar c) && matchAlt alt pw (c :: r)) ||
          (alts.any fun alt => searchElems alt (isWordChar c) r)) := by
      rw [← list_any_or]
      rfl
    rw [hsplit, ih (isWordChar c), countPositions]
    by_cases h : (alts.any fun alt =>
        (pw != isWordChar c) && matchAlt alt pw (c :: r)) = true
    · rw [h]
      have hp : 0 < 1 + countPositions alts (isWordChar c) r := by omega
      simp [hp]
    · rw [Bool.eq_false_iff.2 h]
      simp

theorem keywordPass_foldl (kws : List String) (title : List Char) :
    ∀ (s0 : Int) (m0 : List String),
      kws.foldl
        (fun acc kw =>
          if searchAlts (keywordPattern kw) title then
            (acc.1 + keywordWeight kw, acc.2 ++ [kw])
          else acc)
        (s0, m0) =
      (s0 + (kws.map fun kw =>
          if searchAlts (keywordPattern kw) title then keywordWeight kw else 0).sum,
       m0 ++ kws.filter fun kw => searchAlts (keywordPattern kw) title) := by
  induction kws with
  | nil => intro s0 m0; simp
  | cons kw kws ih =>
    intro s0 m0
    rw [List.foldl_cons, List.map_cons, List.sum_cons, List.filter_cons]
    by_cases h : searchAlts (keywordPattern kw) title = true
    · rw [if_pos h, if_pos h, ih, add_assoc, List.append_assoc, List.singleton_append]
      simp [h]
    · rw [if_neg h, if_neg h, ih]
      simp only [Bool.eq_false_iff.2 h, if_false, Bool.false_eq_true, zero_add]

/-- C10: each taxonomy keyword contributes its weight and its label at most
once, however many times it occurs in the title: the keyword part of the
score is the sum, over taxonomy entries, of the entry's weight times the
indicator that its pattern matches at one or more positions (not the number
of matching positions), the matched labels are exactly the matching keywords
in taxonomy order, and no label is repeated. -/
theorem matcher_once_per_keyword (title : List Char) :
    (keywordPass title).1 =
      (AI_KEYWORDS.map fun kw =>
        if 0 < countPositions (keywordPattern kw) false title
        then keywordWeight kw else 0).sum ∧
    (keywordPass title).2 =
      (AI_KEYWORDS.filter fun kw =>
        decide (0 < countPositions (keywordPattern kw) false title)) ∧
    (keywordPass title).2.Nodup := by
  have hsearch : ∀ kw : String, searchAlts (keywordPattern kw) title =
      decide (0 < countPositions (keywordPattern kw) false title) := by
    intro kw
    rw [searchAlts, search_eq_count]
  have hpass := keywordPass_foldl AI_KEYWORDS title 0 []
  rw [← keywordPass] at hpass
  refine ⟨?_, ?_, ?_⟩
  · rw [hpass]
    simp only [zero_add]
    congr 1
    refine List.map_congr_left ?_
    intro kw _
    rw [hsearch kw]
    by_cases h : 0 < countPositions (keywordPattern kw) false title
    · rw [if_pos h, if_pos (by rwa [decide_eq_true_iff])]
    · rw [if_neg h, if_neg (by rwa [decide_eq_true_iff])]
  · rw [hpass]
    simp only [List.nil_append]
    exact List.filter_congr (fun kw _ => hsearch kw)
  · rw [hpass]
    simp only [List.nil_append]
    exact List.Nodup.filter _ (by decide)

/-! Claim theorems for the Audio Renderer's multi-chunk path. -/

theorem chunkLoop_temps_eq (oracle : Nat → Option Nat) :
    ∀ chunks k, (chunkLoop oracle k chunks).2.2 = (chunkLoop oracle k chunks).2.1 := by
  intro chunks
  induction chunks with
  | nil => intro k; rfl
  | cons ch rest ih =>
    intro k
    rw [chunkLoop]
    rcases h : oracle k with _ | n
    · rfl
    · rcases n with _ | m
      · rfl
      · simp only []
        rw [ih (k + 1)]

theorem chunkLoop_false_of_bad (oracle : Nat → Option Nat) :
    ∀ chunks k, (∃ i, i < chunks.length ∧ (oracle (k + i) = none ∨ oracle (k + i) = some 0)) →
      (chunkLoop oracle k chunks).1 = false := by
  intro chunks
  induction chunks with
  | nil =>
    intro k ⟨i, hi, _⟩
    simp at hi
  | cons ch rest ih =>
    intro k ⟨i, hi, hbad⟩
    rw [chunkLoop]
    rcases h : oracle k with _ | n
    · rfl
    · rcases n with _ | m
      · rfl
      · simp only []
        rcases i with _ | j
        · rw [Nat.add_zero, h] at hbad
          rcases hbad with hb | hb <;> simp at hb
        · refine ih (k + 1) ⟨j, ?_, ?_⟩
          · simp only [List.length_cons] at hi; omega
          · have : k + 1 + j = k + (j + 1) := by omega
            rw [this]; exact hbad

theorem cleanupTemps_self (l : List Nat) : cleanupTemps l l = [] := by
  rw [cleanupTemps, List.filter_eq_nil_iff]
  intro p hp
  simp [hp]

/-- C4: if any chunk's synthesis call fails (raises, or leaves a missing/empty
temporary artifact), the multi-chunk renderer returns overall failure and the
destination artifact is never created; and on every exit — success or failure
— all temporary artifacts recorded as created have been deleted by the
`finally` cleanup. -/
theorem renderer_failure_cleanup (oracle : Nat → Option Nat) (combineOk : Bool)
    (chunks : List (List Char)) :
    ((∃ i, i < chunks.length ∧ (oracle i = none ∨ oracle i = some 0)) →
      (generate_multiple_chunks oracle combineOk chunks).success = false ∧
      (generate_multiple_chunks oracle combineOk chunks).destCreated = false) ∧
    (generate_multiple_chunks oracle combineOk chunks).tempsLeft = [] := by
  constructor
  · intro ⟨i, hi, hbad⟩
    have hfalse : (chunkLoop oracle 0 chunks).1 = false := by
      refine chunkLoop_false_of_bad oracle chunks 0 ⟨i, hi, ?_⟩
      rw [Nat.zero_add]; exact hbad
    simp only [generate_multiple_chunks]
    rw [hfalse]
    exact ⟨rfl, rfl⟩
  · have hteq := chunkLoop_temps_eq oracle chunks 0
    simp only [generate_multiple_chunks]
    by_cases h : (chunkLoop oracle 0 chunks).1 = true
    · rw [if_pos h]
      simp only [MultiResult.mk.injEq]
      rw [hteq]; exact cleanupTemps_self _
    · rw [if_neg h]
      simp only [MultiResult.mk.injEq]
      rw [hteq]; exact cleanupTemps_self _

theorem renderer_failure_cleanup_witness :
    (generate_multiple_chunks (fun i => if i = 1 then none else some 1) true
      ["a".toList, "b".toList, "c".toList]).success = false ∧
    (generate_multiple_chunks (fun i => if i = 1 then none else some 1) true
      ["a".toList, "b".toList, "c".toList]).destCreated = false :=
  (renderer_failure_cleanup (fun i => if i = 1 then none else some 1) true
      ["a".toList, "b".toList, "c".toList]).1
    ⟨1, by decide, Or.inl (by decide)⟩

/-! Claim theorems for the podcast filename helper. -/

theorem replaceTxt_cons4 (c0 c1 c2 c3 : Char) (rest : List Char) :
    replaceTxt (c0 :: c1 :: c2 :: c3 :: rest) =
      if c0 = '.' ∧ c1 = 't' ∧ c2 = 'x' ∧ c3 = 't' then
        '.' :: 'm' :: 'p' :: '3' :: replaceTxt rest
      else c0 :: replaceTxt (c1 :: c2 :: c3 :: rest) := rfl

theorem matchesAt_zero_cons4 (c0 c1 c2 c3 : Char) (rest : List Char) :
    matchesAt (c0 :: c1 :: c2 :: c3 :: rest) txtPat 0 = true ↔
      (c0 = '.' ∧ c1 = 't' ∧ c2 = 'x' ∧ c3 = 't') := by
  rw [matchesAt, txtPat, List.drop_zero]
  simp only [List.isPrefixOf, Bool.and_eq_true, beq_iff_eq]
  constructor
  · rintro ⟨a, b, c, d, _⟩
    exact ⟨a.symm, b.symm, c.symm, d.symm⟩
  · rintro ⟨a, b, c, d⟩
    exact ⟨a.symm, b.symm, c.symm, d.symm, trivial⟩

theorem matchesAt_cons_succ (c : Char) (s : List Char) (pat : List Char) (i : Nat) :
    matchesAt (c :: s) pat (i + 1) = matchesAt s pat i := rfl

theorem replaceTxt_unique_aux :
    ∀ n s, s.length ≤ n →
      matchesAt s txtPat (s.length - 4) = true →
      (∀ i, matchesAt s txtPat i = true → i = s.length - 4) →
      replaceTxt s = s.take (s.length - 4) ++ ['.', 'm', 'p', '3'] := by
  intro n
  induction n with
  | zero =>
    intro s hlen hmatch _
    have h4 := matchesAt_add_le s txtPat (s.length - 4) hmatch (by rw [txtPat]; simp)
    rw [txtPat] at h4
    simp only [List.length_cons, List.length_nil] at h4
    omega
  | succ n ih =>
    intro s hlen hmatch huniq
    have h4 := matchesAt_add_le s txtPat (s.length - 4) hmatch (by rw [txtPat]; simp)
    have hpl : txtPat.length = 4 := rfl
    rw [hpl] at h4
    have hge : 4 ≤ s.length := by omega
    rcases s with _ | ⟨c0, s1⟩
    · simp at hge
    rcases s1 with _ | ⟨c1, s2⟩
    · simp at hge
    rcases s2 with _ | ⟨c2, s3⟩
    · simp at hge
    rcases s3 with _ | ⟨c3, rest⟩
    · simp at hge
    by_cases hm : c0 = '.' ∧ c1 = 't' ∧ c2 = 'x' ∧ c3 = 't'
    · have h0 : matchesAt (c0 :: c1 :: c2 :: c3 :: rest) txtPat 0 = true :=
        (matchesAt_zero_cons4 c0 c1 c2 c3 rest).2 hm
      have hzero := huniq 0 h0
      have hlen4 : (c0 :: c1 :: c2 :: c3 :: rest).length = 4 := by
        simp only [List.length_cons] at hzero ⊢
        omega
      have hrest : rest = [] := by
        simp only [List.length_cons] at hlen4
        exact List.eq_nil_of_length_eq_zero (by omega)
      subst hrest
      obtain ⟨e0, e1, e2, e3⟩ := hm
      subst e0; subst e1; subst e2; subst e3
      decide
    · have hne0 : ¬ matchesAt (c0 :: c1 :: c2 :: c3 :: rest) txtPat 0 = true := by
        rw [matchesAt_zero_cons4]
        exact hm
      have hlen5 : 5 ≤ (c0 :: c1 :: c2 :: c3 :: rest).length := by
        by_contra h5
        push_neg at h5
        have h0 : (c0 :: c1 :: c2 :: c3 :: rest).length - 4 = 0 := by omega
        rw [h0] at hmatch
        exact hne0 hmatch
      have hmatch2 : matchesAt (c1 :: c2 :: c3 :: rest) txtPat
          ((c1 :: c2 :: c3 :: rest).length - 4) = true := by
        have h1 : (c0 :: c1 :: c2 :: c3 :: rest).length - 4 =
            ((c1 :: c2 :: c3 :: rest).length - 4) + 1 := by
          simp only [List.length_cons] at hlen5 ⊢
          omega
        rw [h1, matchesAt_cons_succ] at hmatch
        exact hmatch
      have huniq2 : ∀ i, matchesAt (c1 :: c2 :: c3 :: rest) txtPat i = true →
          i = (c1 :: c2 :: c3 :: rest).length - 4 := by
        intro i hi
        have hstep : matchesAt (c0 :: c1 :: c2 :: c3 :: rest) txtPat (i + 1) = true := by
          rw [matchesAt_cons_succ]
          exact hi
        have := huniq (i + 1) hstep
        simp only [List.length_cons] at this ⊢
        omega
      have hrec := ih (c1 :: c2 :: c3 :: rest)
        (by simp only [List.length_cons] at hlen ⊢; omega) hmatch2 huniq2
      rw [replaceTxt_cons4, if_neg hm, hrec]
      have h1 : (c0 :: c1 :: c2 :: c3 :: rest).length - 4 =
          ((c1 :: c2 :: c3 :: rest).length - 4) + 1 := by
        simp only [List.length_cons] at hlen5 ⊢
        omega
      rw [h1, List.take_succ_cons, List.cons_append]

/-- C9 counterexample: `get_podcast_filename` on a name that ends in `.txt`
replaces every occurrence of `.txt`, not only the trailing extension: on
"a.txt.txt" it returns "a.mp3.mp3", while replacing only the trailing
extension would give "a.txt.mp3". -/
theorem podcast_filename_cex :
    get_podcast_filename "a.txt.txt".toList = "a.mp3.mp3".toList ∧
    get_podcast_filename "a.txt.txt".toList ≠ "a.txt.mp3".toList := by decide

/-- C9 amended: `get_podcast_filename` is a pure function that appends
`.mp3` when the name does not end in `.txt`, and otherwise replaces every
(leftmost, non-overlapping) occurrence of `.txt` with `.mp3` — in particular,
when the trailing extension is the only occurrence of `.txt` in the name, the
result is exactly the stem with `.mp3` substituted for the trailing `.txt`,
so `get_podcast_filename "digest_2025.txt" = "digest_2025.mp3"` and
`get_podcast_filename "digest.log" = "digest.log.mp3"`. -/
theorem podcast_filename_spec (s : List Char) :
    (txtPat.isSuffixOf s = false →
      get_podcast_filename s = s ++ ['.', 'm', 'p', '3']) ∧
    (txtPat.isSuffixOf s = true →
      (∀ i < s.length, matchesAt s txtPat i = true → i = s.length - 4) →
      get_podcast_filename s = s.take (s.length - 4) ++ ['.', 'm', 'p', '3']) := by
  constructor
  · intro h
    rw [get_podcast_filename, if_neg (by rw [h]; exact Bool.false_ne_true)]
  · intro hsuf huniq
    rw [get_podcast_filename, if_pos hsuf]
    have hsfx : txtPat <:+ s := List.isSuffixOf_iff_suffix.1 hsuf
    obtain ⟨t, ht⟩ := hsfx
    have hlen : s.length = t.length + 4 := by
      rw [← ht, List.length_append]; rfl
    have hmatch : matchesAt s txtPat (s.length - 4) = true := by
      have hdrop : s.drop t.length = txtPat := by
        rw [← ht, List.drop_left]
      rw [matchesAt, show s.length - 4 = t.length from by omega, hdrop]
      simp [List.isPrefixOf]
    have huniq2 : ∀ i, matchesAt s txtPat i = true → i = s.length - 4 := by
      intro i hi
      have hle := matchesAt_add_le s txtPat i hi (by rw [txtPat]; simp)
      have hpl : txtPat.length = 4 := rfl
      rw [hpl] at hle
      exact huniq i (by omega) hi
    exact replaceTxt_unique_aux s.length s (le_refl _) hmatch huniq2

theorem podcast_filename_spec_witness :
    get_podcast_filename "digest.log".toList =
      "digest.log".toList ++ ['.', 'm', 'p', '3'] ∧
    get_podcast_filename "digest_2025.txt".toList =
      "digest_2025.txt".toList.take ("digest_2025.txt".toList.length - 4) ++
        ['.', 'm', 'p', '3'] :=
  ⟨(podcast_filename_spec "digest.log".toList).1 (by decide),
   (podcast_filename_spec "digest_2025.txt".toList).2 (by decide) (by decide)⟩
